import Mathlib

/-!
Shallow embedding of the fgivenx package (sample trimming, weight
pipeline, probability-mass transform, parallel apply, MPI scatter and the
cached function-evaluation stage), together with theorems settling the
specification claims about it.

Conventions: machine floats are modelled as exact rationals (ℚ) where the
code only compares, selects and rearranges them, and as reals (ℝ) where the
code takes logarithms and exponentials.  The numpy global random-number
generator is threaded as explicit state.  Python exceptions are `Except`
error values; an exception raised mid-function skips the statements after
it, exactly as in the source.
-/

namespace Fgivenx

/-- Model of the numpy global random-number-generator state: the key fixed by
seeding together with a position in the stream of draws. -/
structure RandState where
  key : Nat
  pos : Nat
  deriving DecidableEq, Repr

/-- numpy.random.seed k: reset the generator to the state determined by k. -/
def numpy_seed (k : Nat) : RandState := ⟨k, 0⟩

/-- A single pseudo-random draw in [0,1): a fixed deterministic function of the
state, standing in for the opaque numpy Mersenne-Twister stream. -/
def randValue (s : RandState) : ℚ := ((s.key + 7 * s.pos) % 13 : Nat) / 13

/-- numpy.random.rand n: n draws from the stream, advancing the state by n. -/
def numpy_rand (n : Nat) (s : RandState) : List ℚ × RandState :=
  ((List.range n).map (fun i => randValue ⟨s.key, s.pos + i⟩), ⟨s.key, s.pos + n⟩)

/-- numpy boolean-mask row selection a[mask]: keep the rows whose mask entry is
true.  The caller must ensure the mask has the same length as the array; numpy
raises an IndexError otherwise, which the embedding of trim_samples checks. -/
def maskSelect (a : List α) (mask : List Bool) : List α :=
  ((a.zip mask).filter (fun p => p.2)).map (fun p => p.1)

/-- Embedding of fgivenx.samples.trim_samples.  The body saves the global RNG
state, seeds with 1, draws len(weights) uniforms, Bernoulli-selects the rows of
samples with the boolean mask `rand(n) < weights`, restores the saved state and
returns a copy of the selection.  The boolean-mask indexing samples[choices]
raises an IndexError when the mask length differs from the number of rows; that
exception propagates before numpy.random.set_state(state) is reached, so on
that path the returned generator state is the seeded-and-advanced one. -/
def trim_samples (samples : List (List ℚ)) (weights : List ℚ) (_ntrim : Int)
    (rng : RandState) : Except String (List (List ℚ)) × RandState :=
  let state := rng
  let rng1 := numpy_seed 1
  let n := weights.length
  let draws := numpy_rand n rng1
  let choices := (draws.1.zip weights).map (fun p => decide (p.1 < p.2))
  if choices.length = samples.length then
    (Except.ok (maskSelect samples choices), state)
  else
    (Except.error "IndexError: boolean index did not match indexed array", draws.2)

theorem choices_length (weights : List ℚ) (rng1 : RandState) :
    (((numpy_rand weights.length rng1).1.zip weights).map
      (fun p => decide (p.1 < p.2))).length = weights.length := by
  simp [numpy_rand]

/-- C10: trim_samples never reads its ntrim argument. -/
theorem trim_samples_ignores_ntrim (samples : List (List ℚ)) (weights : List ℚ)
    (ntrim₁ ntrim₂ : Int) (rng : RandState) :
    trim_samples samples weights ntrim₁ rng = trim_samples samples weights ntrim₂ rng := rfl

/-- C5 (counterexample): with one sample row and two weights the boolean-mask
indexing raises, and the call returns with the generator in the seeded state
⟨1, 2⟩ rather than the caller's state ⟨5, 3⟩: the save/restore invariant fails
on the exceptional path. -/
theorem trim_samples_state_not_restored :
    (trim_samples [[0]] [1, 1] (-1) ⟨5, 3⟩).2 ≠ (⟨5, 3⟩ : RandState) := by
  decide

/-- C5 (amended): whenever samples and weights have the same length — in
particular on every non-exceptional execution path — trim_samples returns the
global generator state exactly as it found it. -/
theorem trim_samples_restores_state (samples : List (List ℚ)) (weights : List ℚ)
    (ntrim : Int) (rng : RandState) (h : samples.length = weights.length) :
    (trim_samples samples weights ntrim rng).2 = rng := by
  unfold trim_samples
  rw [if_pos]
  rw [choices_length, h]

/-- C5 witness: a concrete matched-length call restores the state. -/
theorem trim_samples_restores_state_witness :
    ([[0], [1]] : List (List ℚ)).length = ([1, 0] : List ℚ).length ∧
      (trim_samples [[0], [1]] [1, 0] (-1) ⟨5, 3⟩).2 = (⟨5, 3⟩ : RandState) :=
  ⟨by decide, trim_samples_restores_state [[0], [1]] [1, 0] (-1) ⟨5, 3⟩ (by decide)⟩

/-! ## MPI scatter (fgivenx.parallel.mpi_scatter_array) -/

/-- The sendcounts array of mpi_scatter_array: [n//nprocs]*nprocs, with the
first n-sum(sendcounts) entries incremented by one. -/
def mpi_sendcounts (n p : Nat) : List Nat :=
  (List.replicate p (n / p)).mapIdx
    (fun i c => if i < n - (List.replicate p (n / p)).sum then c + 1 else c)

/-- The displacements array: 0 followed by the cumulative sums of sendcounts
with the last dropped, i.e. entry r is the sum of the first r sendcounts. -/
def mpi_displacements (counts : List Nat) : List Nat :=
  (List.range counts.length).map (fun i => (counts.take i).sum)

/-- The rows Scatterv delivers to worker r: the contiguous block of
sendcounts[r] rows starting at displacements[r] along the leading axis. -/
def mpi_localArray (array : List α) (p r : Nat) : List α :=
  (array.drop ((mpi_displacements (mpi_sendcounts array.length p)).getD r 0)).take
    ((mpi_sendcounts array.length p).getD r 0)

theorem mpi_sendcounts_eq (n p : Nat) :
    mpi_sendcounts n p
      = (List.range p).map (fun i => if i < n % p then n / p + 1 else n / p) := by
  have hsum : (List.replicate p (n / p)).sum = p * (n / p) := by
    simp [List.sum_replicate, smul_eq_mul]
  have hmod : n - p * (n / p) = n % p :=
    Nat.sub_eq_of_eq_add (by rw [Nat.add_comm]; exact (Nat.div_add_mod n p).symm)
  apply List.ext_get
  · simp [mpi_sendcounts]
  · intro i h1 h2
    have h3 : i < (List.replicate p (n / p)).length := by
      simpa [mpi_sendcounts] using h1
    unfold mpi_sendcounts
    rw [List.get_mapIdx _ _ i h3]
    simp [hsum, hmod, List.getElem_replicate]

theorem sum_if_range (p k a : Nat) :
    ((List.range p).map (fun i => if i < k then a + 1 else a)).sum
      = p * a + min k p := by
  induction p with
  | zero => simp
  | succ p ih =>
    rw [List.range_succ, List.map_append, List.sum_append, ih]
    by_cases h : p < k
    · rw [List.map_singleton, List.sum_singleton, if_pos h,
        Nat.min_eq_right (le_of_lt h), Nat.min_eq_right h, Nat.succ_mul]
      omega
    · rw [List.map_singleton, List.sum_singleton, if_neg h,
        Nat.min_eq_left (by omega), Nat.min_eq_left (by omega), Nat.succ_mul]
      omega

theorem mpi_sendcounts_sum (n p : Nat) (hp : 0 < p) : (mpi_sendcounts n p).sum = n := by
  rw [mpi_sendcounts_eq, sum_if_range,
    Nat.min_eq_left (le_of_lt (Nat.mod_lt _ hp))]
  have := Nat.div_add_mod n p
  omega

theorem mpi_sendcounts_getD (n p r : Nat) (hr : r < p) :
    (mpi_sendcounts n p).getD r 0 = if r < n % p then n / p + 1 else n / p := by
  rw [mpi_sendcounts_eq]
  rw [List.getD_eq_getElem _ _ (by simpa using hr)]
  simp

theorem mpi_displacements_getD (counts : List Nat) (r : Nat) (hr : r < counts.length) :
    (mpi_displacements counts).getD r 0 = (counts.take r).sum := by
  rw [mpi_displacements, List.getD_eq_getElem _ _ (by simpa using hr)]
  simp

theorem flatten_map_slice (counts : List Nat) (a : List α) (h : a.length ≤ counts.sum) :
    ((List.range counts.length).map
      (fun r => (a.drop ((counts.take r).sum)).take (counts.getD r 0))).flatten = a := by
  induction counts generalizing a with
  | nil =>
    have : a = [] := by
      cases a with
      | nil => rfl
      | cons x xs => simp at h
    simp [this]
  | cons c cs ih =>
    rw [List.length_cons, List.range_succ_eq_map, List.map_cons, List.map_map,
      List.flatten_cons]
    have hf : ∀ r : Nat,
        ((a.drop (((c :: cs).take (r + 1)).sum)).take ((c :: cs).getD (r + 1) 0))
          = (((a.drop c).drop ((cs.take r).sum)).take (cs.getD r 0)) := by
      intro r
      rw [List.take_cons, List.sum_cons, List.drop_drop]
      congr 1
      omega
    have hcomp :
        (List.range cs.length).map
            ((fun r => (a.drop (((c :: cs).take r).sum)).take ((c :: cs).getD r 0))
              ∘ Nat.succ)
          = (List.range cs.length).map
            (fun r => ((a.drop c).drop ((cs.take r).sum)).take (cs.getD r 0)) := by
      apply List.map_congr_left
      intro r _
      exact hf r
    rw [hcomp, ih (a.drop c) (by simp [List.length_drop, List.sum_cons] at h ⊢; omega)]
    simp [List.take_append_drop]

theorem sum_take_succ_le (l : List Nat) (r : Nat) (hr : r < l.length) :
    (l.take r).sum + l.getD r 0 ≤ l.sum := by
  rw [List.getD_eq_getElem _ _ hr]
  have h1 : (l.take (r + 1)).sum = (l.take r).sum + l[r] := List.sum_take_succ l r hr
  have h2 : (l.take (r + 1)).sum ≤ l.sum := by
    conv_rhs => rw [← List.take_append_drop (r + 1) l]
    rw [List.sum_append]
    omega
  omega

/-- C6: mpi_scatter_array gives worker r a contiguous block of rows along the
leading axis, of size n/p + 1 when r < n % p and n/p otherwise, and the blocks
in rank order concatenate back to the original array (so the sizes differ by
at most one and the remainder rows go to the lowest-ranked workers). -/
theorem mpi_scatter_array_even (array : List α) (p r : Nat) (hp : 0 < p) (hr : r < p) :
    (mpi_localArray array p r).length
        = (if r < array.length % p then array.length / p + 1 else array.length / p) ∧
      ((List.range p).map (mpi_localArray array p)).flatten = array := by
  have hlen : (mpi_sendcounts array.length p).length = p := by
    simp [mpi_sendcounts]
  constructor
  · rw [mpi_localArray, mpi_displacements_getD _ _ (by omega)]
    have hbound := sum_take_succ_le (mpi_sendcounts array.length p) r (by omega)
    rw [mpi_sendcounts_sum _ _ hp] at hbound
    rw [List.length_take, List.length_drop, mpi_sendcounts_getD _ _ _ hr] at *
    rw [Nat.min_eq_left (by omega)]
  · have hmap : (List.range p).map (mpi_localArray array p)
        = (List.range (mpi_sendcounts array.length p).length).map
          (fun i => (array.drop (((mpi_sendcounts array.length p).take i).sum)).take
            ((mpi_sendcounts array.length p).getD i 0)) := by
      rw [hlen]
      apply List.map_congr_left
      intro i hi
      rw [List.mem_range] at hi
      rw [mpi_localArray, mpi_displacements_getD _ _ (by omega)]
    rw [hmap, flatten_map_slice _ _ (by rw [mpi_sendcounts_sum _ _ hp])]

/-- C6 witness: five rows over three workers give blocks of sizes 2, 2, 1 that
concatenate back to the array; worker 1 < 5 % 3 gets 5/3 + 1 = 2 rows. -/
theorem mpi_scatter_array_even_witness :
    0 < 3 ∧ 1 < 3 ∧
      ((mpi_localArray [10, 20, 30, 40, 50] 3 1).length
          = (if 1 < ([10, 20, 30, 40, 50] : List ℚ).length % 3 then
              ([10, 20, 30, 40, 50] : List ℚ).length / 3 + 1
            else ([10, 20, 30, 40, 50] : List ℚ).length / 3) ∧
        ((List.range 3).map (mpi_localArray ([10, 20, 30, 40, 50] : List ℚ) 3)).flatten
          = [10, 20, 30, 40, 50]) :=
  ⟨by decide, by decide,
    mpi_scatter_array_even ([10, 20, 30, 40, 50] : List ℚ) 3 1 (by decide) (by decide)⟩

/-! ## openmp_apply (fgivenx.parallel.openmp_apply) -/

/-- Python exceptions that openmp_apply can raise: KeyError from the
os.environ lookup of an unset variable, the EnvironmentError raised
explicitly in the body, and ValueError from int() on a non-numeric string. -/
inductive PyError where
  | keyError : PyError
  | environmentError : PyError
  | valueError : PyError
  deriving DecidableEq, Repr

/-- Model of joblib.Parallel(n_jobs=nprocs)(delayed(f)(args) for args in
tasks): the library evaluates the delayed calls on a worker pool and returns
their results in submission order, so as a value it is the order-preserving
map of f over the task list. -/
def joblib_Parallel (_n_jobs : Int) (f : List α → β) (tasks : List (List α)) : List β :=
  tasks.map f

/-- The Python identity test written in the source as
`os.environ['OMP_NUM_THREADS'] is 1`: its left operand is a str object and its
right operand the int object 1, and `is` compares object identity, so the test
is False for every string value. -/
def pyStrIsIntOne (_s : String) : Bool := false

/-- Python truthiness of a string: the empty string is falsy. -/
def pyStrTruthy (s : String) : Bool := s ≠ ""

/-- Embedding of fgivenx.parallel.openmp_apply.  The function f receives the
argument list precurry ++ [x] ++ postcurry for each x of array; env is the
value of OMP_NUM_THREADS (none when unset).  Returns the result or the raised
exception, paired with the list of warning lines printed. -/
def openmp_apply (f : List α → β) (array : List α) (nprocs : Option Int)
    (env : Option String) (precurry postcurry : List α) :
    Except PyError (List β) × List String :=
  match nprocs with
  | some n =>
    (Except.ok (joblib_Parallel n f (array.map (fun x => precurry ++ [x] ++ postcurry))), [])
  | none =>
    match env with
    | none => (Except.error PyError.keyError, [])
    | some s =>
      if ¬ pyStrTruthy s then (Except.error PyError.environmentError, [])
      else
        let warnings :=
          if pyStrIsIntOne s then
            ["Warning: You have requested to use openmp, but environment" ++
              "variable OMP_NUM_THREADS=1"]
          else []
        match s.toInt? with
        | none => (Except.error PyError.valueError, warnings)
        | some n =>
          (Except.ok (joblib_Parallel n f (array.map (fun x => precurry ++ [x] ++ postcurry))),
            warnings)

/-- C1: every successful return of openmp_apply is exactly the sequential
reference [f(*precurry, x, *postcurry) for x in array], in input order. -/
theorem openmp_apply_eq_sequential (f : List α → β) (array : List α)
    (nprocs : Option Int) (env : Option String) (precurry postcurry : List α)
    (res : List β)
    (h : (openmp_apply f array nprocs env precurry postcurry).1 = Except.ok res) :
    res = array.map (fun x => f (precurry ++ [x] ++ postcurry)) := by
  unfold openmp_apply joblib_Parallel at h
  cases nprocs with
  | some n =>
    simp only [List.map_map] at h
    exact (Except.ok.injEq _ _ ▸ h).symm
  | none =>
    cases env with
    | none => simp at h
    | some s =>
      by_cases hs : pyStrTruthy s
      · simp only [hs, not_true_eq_false, if_false, ite_false, if_neg] at h
        cases hti : s.toInt? with
        | none => simp [hti] at h
        | some n =>
          simp only [hti, List.map_map] at h
          exact (Except.ok.injEq _ _ ▸ h).symm
      · simp [hs] at h

/-- C1 witness: a concrete successful call returns the sequential reference. -/
theorem openmp_apply_eq_sequential_witness :
    (openmp_apply (fun l => l.sum) ([1, 2, 3] : List ℚ) (some 2) (some "4")
        [10] [20]).1 = Except.ok [31, 32, 33] ∧
      ([31, 32, 33] : List ℚ)
        = ([1, 2, 3] : List ℚ).map (fun x => (([10] : List ℚ) ++ [x] ++ [20]).sum) :=
  ⟨by norm_num [openmp_apply, joblib_Parallel],
    openmp_apply_eq_sequential (fun l => l.sum) [1, 2, 3] (some 2) (some "4")
      [10] [20] [31, 32, 33] (by norm_num [openmp_apply, joblib_Parallel])⟩

/-- C8: evaluation at the failing inputs.  With OMP_NUM_THREADS set to "1" and
no explicit nprocs the call succeeds but prints no warning, because the source
tests `os.environ['OMP_NUM_THREADS'] is 1`, an identity comparison between a
str and the int 1 that is false for every string; and with OMP_NUM_THREADS
unset the environment lookup raises KeyError before the EnvironmentError whose
message reads "OMP_NUM_THREADS is not set" can ever be raised. -/
theorem openmp_apply_no_warning_and_keyerror :
    (openmp_apply (fun l => l.sum) ([1] : List ℚ) none (some "1") [] []).2 = [] ∧
      (openmp_apply (fun l => l.sum) ([1] : List ℚ) none none [] []).1
        = Except.error PyError.keyError := by
  refine ⟨?_, rfl⟩
  simp only [openmp_apply, pyStrTruthy, pyStrIsIntOne]
  cases h : String.toInt? "1" <;> simp [h]

/-! ## PMF (fgivenx.mass.PMF)

The kernel density estimator scipy.stats.gaussian_kde is opaque: its
evaluation is an arbitrary function kernel : ℚ → ℚ and its resample method is
an arbitrary stream of draws, supplied as parameters.  -/

/-- The condition under which scipy.stats.gaussian_kde(samples) on the first
line of PMF.__init__ constructs without raising: the column has at least two
distinct values.  An empty, singleton or constant column gives a degenerate
zero-variance fit that gaussian_kde rejects, so on such columns __init__
raises before ts is ever formed and none of the following definitions is
reached. -/
def gaussian_kde_ok (samples : List ℚ) : Prop :=
  ∃ a ∈ samples, ∃ b ∈ samples, a ≠ b

/-- The values ts that PMF.__init__ uses for the rank calibration, once the
kernel fit has succeeded: with fewer than n = 1000 column values, ts is the
fresh array of 1000 draws that kernel.resample(1000) returns (the first 1000
entries of the resample stream); with 1000 or more values, ts is the samples
array itself. -/
def pmf_usedValues (samples stream : List ℚ) : List ℚ :=
  if samples.length < 1000 then stream.take 1000 else samples

/-- The content of the caller's samples array after PMF.__init__ returns: in
the len(samples) >= 1000 branch ts aliases samples and ts.sort() sorts the
caller's array in place ascending; in the other branch only the fresh
resampled array is sorted and samples is untouched. -/
def pmf_samplesAfterInit (samples : List ℚ) : List ℚ :=
  if samples.length < 1000 then samples else samples.mergeSort

/-- The sorted knot values ts after ts.sort(). -/
def pmf_ts (samples stream : List ℚ) : List ℚ :=
  (pmf_usedValues samples stream).mergeSort

/-- scipy.stats.rankdata with its default average-rank handling of ties: the
rank of an entry p is (number of entries below p) plus the average position of
the tied block, (count of entries equal to p + 1) / 2. -/
def rankdata (ps : List ℚ) : List ℚ :=
  ps.map (fun p => (ps.countP (fun q => decide (q < p)) : ℚ)
    + ((ps.countP (fun q => decide (q = p)) : ℚ) + 1) / 2)

/-- The stored log-mass knots numpy.log(rankdata(ps) / len(ts)). -/
noncomputable def pmf_logms (ps : List ℚ) : List ℝ :=
  (rankdata ps).map (fun r : ℚ => Real.log ((r : ℝ) / (ps.length : ℝ)))

/-- scipy.interpolate.interp1d with bounds_error=False: piecewise-linear
interpolation between successive knots; none stands for the fill value -inf
returned outside [xs.head, xs.last] (and for the degenerate under-two-knot
case, which scipy rejects at construction). -/
def interp1d : List ℚ → List ℝ → ℚ → Option ℝ
  | x0 :: x1 :: xs, y0 :: y1 :: ys, t =>
    if t < x0 then none
    else if t ≤ x1 then some (y0 + (y1 - y0) * (((t - x0) / (x1 - x0) : ℚ) : ℝ))
    else interp1d (x1 :: xs) (y1 :: ys) t
  | _, _, _ => none

/-- PMF.__call__: numpy.exp of the interpolated log-mass, with exp(-inf) = 0
on the fill value. -/
noncomputable def pmf_call (samples stream : List ℚ) (kernel : ℚ → ℚ) (t : ℚ) : ℝ :=
  match interp1d (pmf_ts samples stream)
      (pmf_logms ((pmf_ts samples stream).map kernel)) t with
  | none => 0
  | some v => Real.exp v

/-- C2 (counterexample): the two-value column [0, 10] has two distinct values,
so the kernel fit succeeds and construction proceeds; with a resample stream
that (with probability one for a continuous density) misses the original
values, the rank calibration uses only the 1000 fresh draws — the original
column value 0 is not among the values used, so the column is replaced, not
augmented. -/
theorem pmf_usedValues_drops_original :
    gaussian_kde_ok [0, 10] ∧
      ¬ ((0 : ℚ) ∈ pmf_usedValues [0, 10] (List.replicate 1000 1)) := by
  constructor
  · exact ⟨0, by simp, 10, by simp, by norm_num⟩
  · norm_num [pmf_usedValues, List.take_replicate, List.mem_replicate]

/-- C2 (amended): for a column on which construction succeeds (at least two
distinct values), when it has fewer than 1000 values PMF.__init__ replaces it
for the rank calibration by exactly 1000 fresh draws from the fitted density —
the original values are not retained; when the column has 1000 or more
values, the column values are used directly. -/
theorem pmf_usedValues_spec (samples stream : List ℚ)
    (_hk : gaussian_kde_ok samples) (h : 1000 ≤ stream.length) :
    (samples.length < 1000 →
        pmf_usedValues samples stream = stream.take 1000 ∧
          (pmf_usedValues samples stream).length = 1000) ∧
      (1000 ≤ samples.length → pmf_usedValues samples stream = samples) := by
  constructor
  · intro hlt
    rw [pmf_usedValues, if_pos hlt]
    exact ⟨rfl, by rw [List.length_take]; omega⟩
  · intro hge
    rw [pmf_usedValues, if_neg (by omega)]

/-- C2 witness: a concrete short two-valued column and long stream. -/
theorem pmf_usedValues_spec_witness :
    gaussian_kde_ok [0, 10] ∧
      1000 ≤ (List.replicate 1000 (1 : ℚ)).length ∧
      ((([0, 10] : List ℚ).length < 1000 →
          pmf_usedValues [0, 10] (List.replicate 1000 1)
              = (List.replicate 1000 (1 : ℚ)).take 1000 ∧
            (pmf_usedValues [0, 10] (List.replicate 1000 1)).length = 1000) ∧
        (1000 ≤ ([0, 10] : List ℚ).length →
          pmf_usedValues [0, 10] (List.replicate 1000 1) = [0, 10])) :=
  ⟨⟨0, by simp, 10, by simp, by norm_num⟩, by rw [List.length_replicate],
    pmf_usedValues_spec [0, 10] (List.replicate 1000 1)
      ⟨0, by simp, 10, by simp, by norm_num⟩ (by rw [List.length_replicate])⟩

/-- C9: constructing a PMF from a column of at least 1000 values mutates the
caller's array: after __init__ it holds an ascending-sorted permutation of its
previous content (ts aliases samples and ts.sort() works in place), rather
than being left unchanged. -/
theorem pmf_init_sorts_in_place (samples : List ℚ) (h : 1000 ≤ samples.length) :
    pmf_samplesAfterInit samples = samples.mergeSort ∧
      (pmf_samplesAfterInit samples).Sorted (· ≤ ·) ∧
      (pmf_samplesAfterInit samples).Perm samples := by
  have he : pmf_samplesAfterInit samples = samples.mergeSort := by
    rw [pmf_samplesAfterInit, if_neg (by omega)]
  exact ⟨he, he ▸ List.sorted_mergeSort' samples, he ▸ List.mergeSort_perm samples _⟩

/-- C9 witness: a concrete 1000-value column. -/
theorem pmf_init_sorts_in_place_witness :
    1000 ≤ (List.replicate 1000 (0 : ℚ)).length ∧
      (pmf_samplesAfterInit (List.replicate 1000 0)
          = (List.replicate 1000 (0 : ℚ)).mergeSort ∧
        (pmf_samplesAfterInit (List.replicate 1000 0)).Sorted (· ≤ ·) ∧
        (pmf_samplesAfterInit (List.replicate 1000 0)).Perm (List.replicate 1000 0)) :=
  ⟨by rw [List.length_replicate],
    pmf_init_sorts_in_place (List.replicate 1000 0) (by rw [List.length_replicate])⟩

theorem countP_lt_add_countP_eq_le (ps : List ℚ) (p : ℚ) :
    ps.countP (fun q => decide (q < p)) + ps.countP (fun q => decide (q = p))
      ≤ ps.length := by
  induction ps with
  | nil => simp
  | cons a l ih =>
    simp only [List.countP_cons, List.length_cons]
    by_cases h2 : a = p
    · have h1 : ¬ a < p := by rw [h2]; exact lt_irrefl p
      simp [h1, h2]
      omega
    · by_cases h1 : a < p <;> simp [h1, h2] <;> omega

theorem rankdata_mem_bounds (ps : List ℚ) (r : ℚ) (hr : r ∈ rankdata ps) :
    1 ≤ r ∧ r ≤ (ps.length : ℚ) := by
  rw [rankdata, List.mem_map] at hr
  obtain ⟨p, hp, rfl⟩ := hr
  have h1 : 0 < ps.countP (fun q => decide (q = p)) :=
    List.countP_pos_iff.mpr ⟨p, hp, by simp⟩
  have h2 := countP_lt_add_countP_eq_le ps p
  have h1q : (1 : ℚ) ≤ (ps.countP (fun q => decide (q = p)) : ℚ) := by
    exact_mod_cast h1
  have h2q : (ps.countP (fun q => decide (q < p)) : ℚ)
      + (ps.countP (fun q => decide (q = p)) : ℚ) ≤ (ps.length : ℚ) := by
    exact_mod_cast h2
  have h0q : (0 : ℚ) ≤ (ps.countP (fun q => decide (q < p)) : ℚ) := by positivity
  constructor
  · linarith
  · linarith

theorem pmf_logms_nonpos (ps : List ℚ) : ∀ y ∈ pmf_logms ps, y ≤ 0 := by
  intro y hy
  rw [pmf_logms, List.mem_map] at hy
  obtain ⟨r, hr, rfl⟩ := hy
  obtain ⟨h1, h2⟩ := rankdata_mem_bounds ps r hr
  have h1r : (1 : ℝ) ≤ (r : ℝ) := by exact_mod_cast h1
  apply Real.log_nonpos
  · apply div_nonneg (by linarith) (Nat.cast_nonneg _)
  · rcases Nat.eq_zero_or_pos ps.length with h0 | h0
    · rw [h0]
      norm_num
    · rw [div_le_one (by exact_mod_cast h0)]
      exact_mod_cast h2

theorem interp1d_nonpos (xs : List ℚ) (ys : List ℝ) (t : ℚ) (v : ℝ)
    (hs : xs.Sorted (· ≤ ·)) (hy : ∀ y ∈ ys, y ≤ 0)
    (h : interp1d xs ys t = some v) : v ≤ 0 := by
  induction xs generalizing ys with
  | nil => simp [interp1d] at h
  | cons x0 xs' ih =>
    cases xs' with
    | nil => simp [interp1d] at h
    | cons x1 rest =>
      cases ys with
      | nil => simp [interp1d] at h
      | cons y0 ys' =>
        cases ys' with
        | nil => simp [interp1d] at h
        | cons y1 yrest =>
          rw [interp1d] at h
          split_ifs at h with h1 h2
          · rw [Option.some_inj] at h
            have hx01 : x0 ≤ x1 := (List.sorted_cons.mp hs).1 x1 (by simp)
            have hy0 : y0 ≤ 0 := hy y0 (by simp)
            have hy1 : y1 ≤ 0 := hy y1 (by simp)
            rcases lt_or_eq_of_le hx01 with hlt | heq
            · have hw0 : (0 : ℚ) ≤ (t - x0) / (x1 - x0) :=
                div_nonneg (by linarith [not_lt.mp h1]) (by linarith)
              have hw1 : (t - x0) / (x1 - x0) ≤ 1 :=
                (div_le_one (by linarith)).mpr (by linarith)
              have hw0r : (0 : ℝ) ≤ (((t - x0) / (x1 - x0) : ℚ) : ℝ) := by
                exact_mod_cast hw0
              have hw1r : (((t - x0) / (x1 - x0) : ℚ) : ℝ) ≤ 1 := by
                exact_mod_cast hw1
              rw [← h]
              nlinarith [mul_nonneg (sub_nonneg.mpr hw1r) (neg_nonneg.mpr hy0),
                mul_nonneg hw0r (neg_nonneg.mpr hy1)]
            · have ht : t = x0 := le_antisymm (heq ▸ h2) (not_lt.mp h1)
              rw [← h, ht, sub_self, zero_div, Rat.cast_zero, mul_zero, add_zero]
              exact hy0
          · exact ih (y1 :: yrest) (List.Sorted.of_cons hs)
              (fun y hmem => hy y (List.mem_cons_of_mem y0 hmem)) h

theorem interp1d_none_below (xs : List ℚ) (ys : List ℝ) (t : ℚ)
    (h : ∀ x ∈ xs, t < x) : interp1d xs ys t = none := by
  cases xs with
  | nil => rfl
  | cons x0 xs' =>
    cases xs' with
    | nil => rfl
    | cons x1 rest =>
      cases ys with
      | nil => rfl
      | cons y0 ys' =>
        cases ys' with
        | nil => rfl
        | cons y1 yrest =>
          rw [interp1d, if_pos (h x0 (by simp))]

theorem interp1d_none_above (xs : List ℚ) (ys : List ℝ) (t : ℚ)
    (h : ∀ x ∈ xs, x < t) : interp1d xs ys t = none := by
  induction xs generalizing ys with
  | nil => rfl
  | cons x0 xs' ih =>
    cases xs' with
    | nil => rfl
    | cons x1 rest =>
      cases ys with
      | nil => rfl
      | cons y0 ys' =>
        cases ys' with
        | nil => rfl
        | cons y1 yrest =>
          rw [interp1d, if_neg (not_lt.mpr (le_of_lt (h x0 (by simp)))),
            if_neg (not_le.mpr (h x1 (by simp)))]
          exact ih (y1 :: yrest) (fun x hx => h x (List.mem_cons_of_mem x0 hx))

/-- C3: for every column — duplicated values included, so in particular every
column from which a PMF is successfully constructed — and every evaluation
point t, the evaluated mass lies in [0, 1]; and at every t strictly outside
the range of the possibly-augmented sorted sample values — below every knot
or above every knot — the mass is exactly 0. -/
theorem pmf_call_bounds (samples stream : List ℚ) (kernel : ℚ → ℚ) (t : ℚ) :
    (0 ≤ pmf_call samples stream kernel t ∧ pmf_call samples stream kernel t ≤ 1) ∧
      (((∀ x ∈ pmf_ts samples stream, x < t) ∨ (∀ x ∈ pmf_ts samples stream, t < x)) →
        pmf_call samples stream kernel t = 0) := by
  have hsorted : (pmf_ts samples stream).Sorted (· ≤ ·) :=
    List.sorted_mergeSort' (pmf_usedValues samples stream)
  constructor
  · rw [pmf_call]
    cases hi : interp1d (pmf_ts samples stream)
        (pmf_logms ((pmf_ts samples stream).map kernel)) t with
    | none => norm_num
    | some v =>
      have hv := interp1d_nonpos _ _ t v hsorted (pmf_logms_nonpos _) hi
      exact ⟨le_of_lt (Real.exp_pos v), Real.exp_le_one_iff.mpr hv⟩
  · intro hout
    rw [pmf_call]
    rcases hout with habove | hbelow
    · rw [interp1d_none_above _ _ t habove]
    · rw [interp1d_none_below _ _ t hbelow]

/-- C3 witness: a concrete 1000-value column evaluated at the point -1, which
lies strictly below every knot, so the mass is within [0, 1] and equals 0. -/
theorem pmf_call_bounds_witness :
    (0 ≤ pmf_call ((List.range 1000).map (Nat.cast : ℕ → ℚ)) [] (fun _ => 1) (-1) ∧
        pmf_call ((List.range 1000).map (Nat.cast : ℕ → ℚ)) [] (fun _ => 1) (-1) ≤ 1) ∧
      pmf_call ((List.range 1000).map (Nat.cast : ℕ → ℚ)) [] (fun _ => 1) (-1) = 0 := by
  refine ⟨(pmf_call_bounds ((List.range 1000).map (Nat.cast : ℕ → ℚ)) []
      (fun _ => 1) (-1)).1,
    (pmf_call_bounds ((List.range 1000).map (Nat.cast : ℕ → ℚ)) []
      (fun _ => 1) (-1)).2 (Or.inr ?_)⟩
  intro x hx
  rw [pmf_ts] at hx
  have hx1 : x ∈ pmf_usedValues ((List.range 1000).map (Nat.cast : ℕ → ℚ)) [] :=
    (List.mergeSort_perm _ _).mem_iff.mp hx
  rw [pmf_usedValues,
    if_neg (by rw [List.length_map, List.length_range]; omega)] at hx1
  rw [List.mem_map] at hx1
  obtain ⟨n, _, rfl⟩ := hx1
  have h0 : (0 : ℚ) ≤ (n : ℚ) := Nat.cast_nonneg n
  linarith

/-! ## Weight pipeline (fgivenx.compute_samples in __init__.py, lines 150-156) -/

/-- numpy max over a 1-D array (undefined on empty input, which numpy
rejects; the claims only use it on nonempty lists). -/
def listMax : List ℝ → ℝ
  | [] => 0
  | x :: xs => xs.foldl max x

theorem listMax_cons (x : ℝ) (xs : List ℝ) : listMax (x :: xs) = xs.foldl max x := rfl

theorem foldl_max_mem (xs : List ℝ) (a : ℝ) : xs.foldl max a = a ∨ xs.foldl max a ∈ xs := by
  induction xs generalizing a with
  | nil => exact Or.inl rfl
  | cons x xs ih =>
    rw [List.foldl_cons]
    rcases ih (max a x) with h | h
    · rcases max_choice a x with hm | hm
      · exact Or.inl (h.trans hm)
      · exact Or.inr (by rw [h, hm]; exact List.mem_cons_self x xs)
    · exact Or.inr (List.mem_cons_of_mem x h)

theorem listMax_mem (l : List ℝ) (hl : l ≠ []) : listMax l ∈ l := by
  cases l with
  | nil => exact absurd rfl hl
  | cons x xs =>
    rw [listMax_cons]
    rcases foldl_max_mem xs x with h | h
    · rw [h]; exact List.mem_cons_self x xs
    · exact List.mem_cons_of_mem x h

theorem le_foldl_max (xs : List ℝ) (a : ℝ) : a ≤ xs.foldl max a := by
  induction xs generalizing a with
  | nil => exact le_refl a
  | cons x xs ih => exact le_trans (le_max_left a x) (ih (max a x))

theorem mem_le_foldl_max (xs : List ℝ) (a x : ℝ) (hx : x ∈ xs) : x ≤ xs.foldl max a := by
  induction xs generalizing a with
  | nil => cases hx
  | cons y ys ih =>
    rw [List.foldl_cons]
    rcases List.mem_cons.mp hx with rfl | h
    · exact le_trans (le_max_right a x) (le_foldl_max ys _)
    · exact ih _ h

theorem le_listMax (l : List ℝ) (x : ℝ) (hx : x ∈ l) : x ≤ listMax l := by
  cases l with
  | nil => cases hx
  | cons y ys =>
    rw [listMax_cons]
    rcases List.mem_cons.mp hx with rfl | h
    · exact le_foldl_max ys x
    · exact mem_le_foldl_max ys y x h

theorem listMax_map_mono (f : ℝ → ℝ) (hf : Monotone f) (l : List ℝ) (hl : l ≠ []) :
    listMax (l.map f) = f (listMax l) := by
  apply le_antisymm
  · have h1 := listMax_mem (l.map f) (by simpa using hl)
    rw [List.mem_map] at h1
    obtain ⟨x, hx, hfx⟩ := h1
    rw [← hfx]
    exact hf (le_listMax l x hx)
  · exact le_listMax (l.map f) _ (List.mem_map_of_mem f (listMax_mem l hl))

/-- The evidence-scaling step as the spec words it: per-model normalization
w / w.sum(), scaled by Z = exp(logZ_m - max(logZ)). -/
noncomputable def evidenceScale (logZs : List ℝ) (weights : List (List ℝ)) :
    List (List ℝ) :=
  List.zipWith (fun w Z => w.map (fun x => x / w.sum * Z)) weights
    (logZs.map (fun z => Real.exp (z - listMax logZs)))

/-- The max-normalization step as the spec words it: every weight of every
model divided by the single largest weight across all models. -/
noncomputable def maxNormalize (ws : List (List ℝ)) : List (List ℝ) :=
  ws.map (fun w => w.map (fun x => x / listMax (ws.map listMax)))

/-- The conditional trim rescaling as the spec words it: only when an explicit
ntrim is supplied and is below the total weight ntot is every weight
multiplied by ntrim/ntot. -/
noncomputable def ntrimScale (ntrim : Option ℝ) (ws : List (List ℝ)) :
    List (List ℝ) :=
  match ntrim with
  | some k =>
    if k < (ws.map (fun w => w.sum)).sum then
      ws.map (fun w => w.map (fun x => x * k / (ws.map (fun w => w.sum)).sum))
    else ws
  | none => ws

/-- The weight-transformation block of fgivenx.compute_samples (__init__.py
lines 150-156), translated statement by statement: Zs = exp(logZs - max);
weights = [w/w.sum()*Z ...]; wmax = max of the per-model maxima; weights =
[w/wmax ...]; ntot = total weight; if ntrim is given and ntrim < ntot then
weights = [w*ntrim/ntot ...]. -/
noncomputable def compute_samples_weights (logZs : List ℝ) (weights : List (List ℝ))
    (ntrim : Option ℝ) : List (List ℝ) :=
  let Zs := logZs.map (fun z => Real.exp (z - listMax logZs))
  let w1 := List.zipWith (fun w Z => w.map (fun x => x / w.sum * Z)) weights Zs
  let wmax := listMax (w1.map listMax)
  let w2 := w1.map (fun w => w.map (fun x => x / wmax))
  let ntot := (w2.map (fun w => w.sum)).sum
  match ntrim with
  | some k => if k < ntot then w2.map (fun w => w.map (fun x => x * k / ntot)) else w2
  | none => w2

/-- C4: the source's weight block is exactly the spec's three transformations
in the spec's order — evidence scaling after per-model normalization, then
division by the single largest weight, then the conditional ntrim rescaling —
and after the second step the maximum weight across all models equals 1
(for nonempty models with positive weights and matching logZs length). -/
theorem compute_samples_weights_order (logZs : List ℝ) (weights : List (List ℝ))
    (ntrim : Option ℝ) (hne : weights ≠ []) (hlen : logZs.length = weights.length)
    (hpos : ∀ w ∈ weights, w ≠ [] ∧ ∀ x ∈ w, 0 < x) :
    compute_samples_weights logZs weights ntrim
        = ntrimScale ntrim (maxNormalize (evidenceScale logZs weights)) ∧
      listMax ((maxNormalize (evidenceScale logZs weights)).map listMax) = 1 := by
  constructor
  · rfl
  · have hw1len : (evidenceScale logZs weights).length = weights.length := by
      rw [evidenceScale, List.length_zipWith, List.length_map, hlen, min_self]
    have hw1ne : evidenceScale logZs weights ≠ [] := by
      rw [← List.length_pos, hw1len, List.length_pos]
      exact hne
    have hw1pos : ∀ w ∈ evidenceScale logZs weights, w ≠ [] ∧ ∀ x ∈ w, 0 < x := by
      intro w hw
      rw [evidenceScale, List.mem_iff_getElem] at hw
      obtain ⟨i, hi, hwi⟩ := hw
      rw [List.length_zipWith, List.length_map] at hi
      have hiw : i < weights.length := lt_of_lt_of_le hi (min_le_left _ _)
      rw [List.getElem_zipWith] at hwi
      have hmem : weights.get ⟨i, hiw⟩ ∈ weights := weights.get_mem _ _
      obtain ⟨hwne, hwpos⟩ := hpos (weights.get ⟨i, hiw⟩) hmem
      have hsum : 0 < (weights.get ⟨i, hiw⟩).sum := List.sum_pos _ hwpos hwne
      constructor
      · rw [← hwi]
        simpa using hwne
      · intro x hx
        rw [← hwi, List.mem_map] at hx
        obtain ⟨y, hy, hyx⟩ := hx
        rw [← hyx, List.getElem_map]
        exact mul_pos (div_pos (hwpos y hy) hsum) (Real.exp_pos _)
    set w1 := evidenceScale logZs weights with hw1def
    set wmax := listMax (w1.map listMax) with hwmax
    have hmaxmem : wmax ∈ w1.map listMax :=
      listMax_mem _ (by simpa using hw1ne)
    have hmaxpos : 0 < wmax := by
      rw [List.mem_map] at hmaxmem
      obtain ⟨w, hw, hww⟩ := hmaxmem
      obtain ⟨hwne, hwpos⟩ := hw1pos w hw
      rw [← hww]
      exact hwpos _ (listMax_mem w hwne)
    have hstep : (maxNormalize w1).map listMax
        = (w1.map listMax).map (fun m => m / wmax) := by
      rw [maxNormalize, List.map_map, List.map_map]
      apply List.map_congr_left
      intro w hw
      exact listMax_map_mono (fun x => x / wmax)
        (monotone_id.div_const hmaxpos.le) w (hw1pos w hw).1
    rw [hstep, listMax_map_mono (fun m => m / wmax)
      (monotone_id.div_const hmaxpos.le) _ (by simpa using hw1ne)]
    exact div_self (ne_of_gt hmaxpos)

/-- C4 witness: one model with weights [1, 2] and logZ 0. -/
theorem compute_samples_weights_order_witness :
    ([[1, 2]] : List (List ℝ)) ≠ [] ∧
      ([(0 : ℝ)] : List ℝ).length = ([[1, 2]] : List (List ℝ)).length ∧
      ((compute_samples_weights [0] [[1, 2]] none
          = ntrimScale none (maxNormalize (evidenceScale [0] [[1, 2]]))) ∧
        listMax ((maxNormalize (evidenceScale [0] [[1, 2]])).map listMax) = 1) := by
  have hpos : ∀ w ∈ ([[1, 2]] : List (List ℝ)), w ≠ [] ∧ ∀ x ∈ w, 0 < x := by
    intro w hw
    rw [List.mem_singleton] at hw
    subst hw
    refine ⟨by simp, ?_⟩
    intro x hx
    rcases List.mem_cons.mp hx with rfl | hx'
    · norm_num
    · rcases List.mem_singleton.mp hx' with rfl
      norm_num
  exact ⟨by simp, rfl,
    compute_samples_weights_order [0] [[1, 2]] none (by simp) rfl hpos⟩

/-! ## Cached function evaluation (fgivenx.samples.compute_samples) -/

/-- Modelled from the spec: the module fgivenx.io (Cache, CacheError) is not
among the source files.  Spec section 4.1: the cache stores one
(x, samples, result) triple; check returns the stored result only when the
stored inputs are element-wise identical to the arguments, and otherwise
fails with a CacheError carrying a diagnostic message; save overwrites the
stored triple. -/
structure Cache (X S R : Type) where
  stored : Option (X × S × R)

/-- Modelled from the spec: Cache.check (spec section 4.1). -/
def cache_check [DecidableEq X] [DecidableEq S] (c : Cache X S R) (x : X) (s : S) :
    Except String R :=
  match c.stored with
  | none => Except.error "CacheError: no cache file"
  | some (x', s', r) =>
    if x' = x ∧ s' = s then Except.ok r
    else Except.error "CacheError: cache file does not match arguments"

/-- Modelled from the spec: Cache.save (spec section 4.1), overwriting any
previous entry. -/
def cache_save (_c : Cache X S R) (x : X) (s : S) (r : R) : Cache X S R :=
  ⟨some (x, s, r)⟩

/-- Modelled from the spec: fgivenx.parallel.parallel_apply is not among the
source files; spec section 4.2 gives its contract as the order-preserving
apply(f, array, precurry) = [f(*precurry, theta) for theta in array]. -/
def parallel_apply {X Θ : Type} (f : X → Θ → List ℚ) (x : X) (s : List Θ) : List (List ℚ) :=
  s.map (f x)

/-- numpy.concatenate(ms, axis=1): rowwise concatenation of a nonempty list
of matrices with equal row counts (numpy rejects the empty list; the claims
never evaluate that case). -/
def concatAxis1 : List (List (List ℚ)) → List (List ℚ)
  | [] => []
  | [m] => m
  | m :: rest => List.zipWith (· ++ ·) m (concatAxis1 rest)

/-- The recomputation loop of fgivenx.samples.compute_samples: for each
(fi, s) of zip(f, samples) with len(s) > 0, run parallel_apply with
precurry=(x,), transpose, and concatenate all models along the sample axis. -/
def fsamples_loop {X Θ : Type} (f : List (X → Θ → List ℚ)) (x : X) (samples : List (List Θ)) :
    List (List ℚ) :=
  concatAxis1 (((f.zip samples).filter (fun p => 0 < p.2.length)).map
    (fun p => (parallel_apply p.1 x p.2).transpose))

/-- Embedding of fgivenx.samples.compute_samples with its cache keyword: with
a cache identifier supplied, the cache is checked first and a hit is returned
directly; a CacheError is caught, its message printed, and the matrix
recomputed and saved.  Returns the matrix, the final cache state and the
printed diagnostics. -/
def samples_compute_samples {X Θ : Type} [DecidableEq X] [DecidableEq (List (List Θ))]
    (f : List (X → Θ → List ℚ)) (x : X) (samples : List (List Θ))
    (cache : Option (Cache X (List (List Θ)) (List (List ℚ)))) :
    List (List ℚ) × Option (Cache X (List (List Θ)) (List (List ℚ))) × List String :=
  match cache with
  | none => (fsamples_loop f x samples, none, [])
  | some c =>
    match cache_check c x samples with
    | Except.ok r => (r, some c, [])
    | Except.error e =>
      (fsamples_loop f x samples,
        some (cache_save c x samples (fsamples_loop f x samples)), [e])

/-- C7: when the cache check fails with a cache error, compute_samples does
not propagate the error to its caller: it returns normally with the
recomputed function-evaluation matrix, logs exactly the cache diagnostic,
and saves the recomputed result to the cache before returning. -/
theorem compute_samples_cache_error_recovers {X Θ : Type} [DecidableEq X]
    [DecidableEq (List (List Θ))] (f : List (X → Θ → List ℚ)) (x : X)
    (samples : List (List Θ)) (c : Cache X (List (List Θ)) (List (List ℚ)))
    (e : String) (h : cache_check c x samples = Except.error e) :
    samples_compute_samples f x samples (some c)
      = (fsamples_loop f x samples,
          some ⟨some (x, samples, fsamples_loop f x samples)⟩, [e]) := by
  rw [samples_compute_samples, h]
  rfl

/-- C7 witness: an empty cache fails its check with the no-cache-file
diagnostic, and the call recomputes, logs and saves. -/
theorem compute_samples_cache_error_recovers_witness :
    cache_check (⟨none⟩ : Cache ℚ (List (List ℚ)) (List (List ℚ))) 0 [[1]]
        = Except.error "CacheError: no cache file" ∧
      samples_compute_samples [fun x th => [x + th]] (0 : ℚ) [[1]]
          (some (⟨none⟩ : Cache ℚ (List (List ℚ)) (List (List ℚ))))
        = (fsamples_loop [fun x th => [x + th]] (0 : ℚ) [[1]],
            some ⟨some ((0 : ℚ), [[1]], fsamples_loop [fun x th => [x + th]] (0 : ℚ) [[1]])⟩,
            ["CacheError: no cache file"]) :=
  ⟨rfl, compute_samples_cache_error_recovers [fun x th => [x + th]] 0 [[1]] ⟨none⟩
    "CacheError: no cache file" rfl⟩

end Fgivenx
